import Mathlib

/-!
Verification of the Gitan-Admin-Panel encrypted-secret persistence core.

The development shallowly embeds the two persistence variants of
`src/lib/clients.ts` (a Postgres-backed store and a JSON-file-backed store)
and the AES-256-GCM secret cipher of `src/lib/crypto.ts`.

JavaScript strings are modelled as `List Char` (`Str`); absent (`undefined`)
values are modelled with `Option`.  Byte buffers are `List Nat` with the
invariant that every entry is `< 256` where it matters.  The AEAD primitive
(Node's `aes-256-gcm`) is a library function, not repository code, so it is
modelled by its GCM structure: counter-mode keystream XOR for the ciphertext
plus a MAC over the ciphertext for the auth tag, both parametrised by an
arbitrary `AeadPrim` (the theorems hold for every choice of keystream and
MAC, which is exactly the structural content of the GCM round trip).
-/

/-- JavaScript strings are modelled as lists of characters. -/
abbrev Str := List Char

/-- Coerce a Lean string literal into the `Str` model. -/
def str (s : String) : Str := s.toList

/-- JavaScript `a < b` on strings: lexicographic comparison by code unit. -/
def ltStr : Str → Str → Bool
  | [], [] => false
  | [], _ :: _ => true
  | _ :: _, [] => false
  | a :: as, b :: bs => if a < b then true else if b < a then false else ltStr as bs

/-- JavaScript `String.prototype.trim`: drop whitespace at both ends. -/
def trimStr (s : Str) : Str :=
  ((s.dropWhile Char.isWhitespace).reverse.dropWhile Char.isWhitespace).reverse

/-- JavaScript `String.prototype.toLowerCase` (ASCII fragment). -/
def lowerStr (s : Str) : Str := s.map Char.toLower

/-- The base64 alphabet used by Node's `Buffer.toString("base64")`. -/
def alphabetB64 : List Char :=
  str "ABCDEFGHIJKLMNOPQRSTUVWXYZabcdefghijklmnopqrstuvwxyz0123456789+/"

/-- Encode one sextet (a value `< 64`) as a base64 character. -/
def enc64 (n : Nat) : Char := alphabetB64.getD n 'A'

/-- Decode one base64 character back to its sextet; `none` for characters
outside the alphabet (Node ignores such characters, `=` padding included). -/
def dec64 (c : Char) : Option Nat :=
  let i := alphabetB64.indexOf c
  if i < 64 then some i else none

/-- Base64-encode a byte list, three bytes to four characters, with `=`
padding exactly as Node's `Buffer.toString("base64")` produces it. -/
def b64encode : List Nat → List Char
  | a :: b :: c :: rest =>
    enc64 (a / 4) :: enc64 (a % 4 * 16 + b / 16) :: enc64 (b % 16 * 4 + c / 64)
      :: enc64 (c % 64) :: b64encode rest
  | [a, b] => [enc64 (a / 4), enc64 (a % 4 * 16 + b / 16), enc64 (b % 16 * 4), '=']
  | [a] => [enc64 (a / 4), enc64 (a % 4 * 16), '=', '=']
  | [] => []

/-- Reassemble bytes from a list of sextets (four sextets to three bytes,
with the shorter tails produced by padding). -/
def sextetsToBytes : List Nat → List Nat
  | w :: x :: y :: z :: rest =>
    (w * 4 + x / 16) :: (x % 16 * 16 + y / 4) :: (y % 4 * 64 + z) :: sextetsToBytes rest
  | [w, x, y] => [w * 4 + x / 16, x % 16 * 16 + y / 4]
  | [w, x] => [w * 4 + x / 16]
  | _ => []

/-- Base64-decode in the forgiving style of Node's `Buffer.from(s, "base64")`:
characters outside the alphabet (padding included) are skipped. -/
def b64decode (s : List Char) : List Nat := sextetsToBytes (s.filterMap dec64)

/-- JavaScript `payload.split(".")` on the character-list model. -/
def splitOnDot : Str → List Str
  | [] => [[]]
  | c :: rest =>
    if c = '.' then [] :: splitOnDot rest
    else
      match splitOnDot rest with
      | [] => [[c]]
      | g :: gs => (c :: g) :: gs

/-- Counter-mode encryption and decryption: XOR each byte with the keystream
byte at its index. -/
def xorStream (f : Nat → Nat) : Nat → List Nat → List Nat
  | _, [] => []
  | i, b :: rest => (b ^^^ f i) :: xorStream f (i + 1) rest

/-- Errors raised by the cipher layer of `crypto.ts`. -/
inductive CryptoErr
  | invalidPayload
  | authenticationError
  deriving DecidableEq, Repr

/-- Abstract AEAD primitive standing for Node's `aes-256-gcm`: a keystream
generator (key → iv → byte index → keystream byte) and a MAC
(key → iv → ciphertext → tag). -/
structure AeadPrim where
  ks : List Nat → List Nat → Nat → Nat
  mac : List Nat → List Nat → List Nat → List Nat

/-- Embedding of `encryptSecret` from `crypto.ts`: encrypt the value under a
fresh `iv` (the caller supplies the random bytes), compute the auth tag, and
join the three base64 components with `"."`. -/
def encryptSecret (p : AeadPrim) (key iv value : List Nat) : Str :=
  let encrypted := xorStream (p.ks key iv) 0 value
  let authTag := p.mac key iv encrypted
  b64encode iv ++ '.' :: (b64encode authTag ++ '.' :: b64encode encrypted)

/-- Embedding of `decryptSecret` from `crypto.ts`: destructure the first three
`"."`-separated components (JavaScript array destructuring ignores any further
components and yields `undefined`, here the empty default, for missing ones),
reject when any of the three is missing or empty, then verify the tag and
decrypt. -/
def decryptSecret (p : AeadPrim) (key : List Nat) (payload : Str) :
    Except CryptoErr (List Nat) :=
  let parts := splitOnDot payload
  let ivB64 := parts.getD 0 []
  let tagB64 := parts.getD 1 []
  let cipherTextB64 := parts.getD 2 []
  if ivB64.isEmpty || tagB64.isEmpty || cipherTextB64.isEmpty then
    .error .invalidPayload
  else
    let iv := b64decode ivB64
    let tag := b64decode tagB64
    let ct := b64decode cipherTextB64
    if p.mac key iv ct = tag then
      .ok (xorStream (p.ks key iv) 0 ct)
    else
      .error .authenticationError

/-- Decidable equality for `Except`, used to evaluate the model on concrete
inputs. -/
instance {ε α : Type _} [DecidableEq ε] [DecidableEq α] : DecidableEq (Except ε α) := fun
  | .ok a, .ok b =>
    if h : a = b then isTrue (by rw [h])
    else isFalse (by intro hc; cases hc; exact h rfl)
  | .ok _, .error _ => isFalse (by intro h; cases h)
  | .error _, .ok _ => isFalse (by intro h; cases h)
  | .error e, .error f =>
    if h : e = f then isTrue (by rw [h])
    else isFalse (by intro hc; cases hc; exact h rfl)

/-- A concrete AEAD primitive used to instantiate witnesses. -/
def testPrim : AeadPrim := ⟨fun _ _ _ => 7, fun _ _ _ => [3]⟩

/-! ### Base64, split and keystream lemmas -/

theorem dec64_enc64 : ∀ n : Fin 64, dec64 (enc64 n.val) = some n.val := by decide

theorem dec64_enc64_of_lt {n : Nat} (h : n < 64) : dec64 (enc64 n) = some n :=
  dec64_enc64 ⟨n, h⟩

theorem enc64_ne_dot (n : Nat) : enc64 n ≠ '.' := by
  by_cases h : n < 64
  · exact (by decide : ∀ m : Fin 64, enc64 m.val ≠ '.') ⟨n, h⟩
  · rw [enc64, List.getD_eq_default]
    · decide
    · have : alphabetB64.length = 64 := by decide
      omega

theorem b64encode_no_dot : ∀ bs : List Nat, '.' ∉ b64encode bs := by
  intro bs
  induction bs using b64encode.induct with
  | case1 a b c rest ih =>
    simp only [b64encode, List.mem_cons]
    push_neg
    exact ⟨(enc64_ne_dot _).symm, (enc64_ne_dot _).symm, (enc64_ne_dot _).symm,
      (enc64_ne_dot _).symm, ih⟩
  | case2 a b =>
    simp only [b64encode, List.mem_cons]
    push_neg
    refine ⟨(enc64_ne_dot _).symm, (enc64_ne_dot _).symm, (enc64_ne_dot _).symm, by decide⟩
  | case3 a =>
    simp only [b64encode, List.mem_cons]
    push_neg
    refine ⟨(enc64_ne_dot _).symm, (enc64_ne_dot _).symm, by decide⟩
  | case4 => simp [b64encode]

theorem b64encode_ne_nil : ∀ {bs : List Nat}, bs ≠ [] → b64encode bs ≠ [] := by
  intro bs h
  match bs with
  | a :: b :: c :: rest => simp [b64encode]
  | [a, b] => simp [b64encode]
  | [a] => simp [b64encode]

theorem b64_roundtrip : ∀ bs : List Nat, (∀ b ∈ bs, b < 256) → b64decode (b64encode bs) = bs := by
  intro bs
  induction bs using b64encode.induct with
  | case1 a b c rest ih =>
    intro h
    have ha : a < 256 := h a (by simp)
    have hb : b < 256 := h b (by simp)
    have hc : c < 256 := h c (by simp)
    have hrest : ∀ x ∈ rest, x < 256 := fun x hx => h x (by simp [hx])
    simp only [b64encode, b64decode, List.filterMap_cons]
    rw [dec64_enc64_of_lt (by omega), dec64_enc64_of_lt (by omega),
      dec64_enc64_of_lt (by omega), dec64_enc64_of_lt (by omega)]
    simp only [sextetsToBytes]
    have := ih hrest
    rw [b64decode] at this
    rw [this]
    have e1 : a / 4 * 4 + (a % 4 * 16 + b / 16) / 16 = a := by omega
    have e2 : (a % 4 * 16 + b / 16) % 16 * 16 + (b % 16 * 4 + c / 64) / 4 = b := by omega
    have e3 : (b % 16 * 4 + c / 64) % 4 * 64 + c % 64 = c := by omega
    rw [e1, e2, e3]
  | case2 a b =>
    intro h
    have ha : a < 256 := h a (by simp)
    have hb : b < 256 := h b (by simp)
    simp only [b64encode, b64decode, List.filterMap_cons]
    rw [dec64_enc64_of_lt (by omega), dec64_enc64_of_lt (by omega),
      dec64_enc64_of_lt (by omega)]
    have : dec64 '=' = none := by decide
    rw [this]
    simp only [List.filterMap_nil, sextetsToBytes]
    have e1 : a / 4 * 4 + (a % 4 * 16 + b / 16) / 16 = a := by omega
    have e2 : (a % 4 * 16 + b / 16) % 16 * 16 + b % 16 * 4 / 4 = b := by omega
    rw [e1, e2]
  | case3 a =>
    intro h
    have ha : a < 256 := h a (by simp)
    simp only [b64encode, b64decode, List.filterMap_cons]
    rw [dec64_enc64_of_lt (by omega), dec64_enc64_of_lt (by omega)]
    have : dec64 '=' = none := by decide
    rw [this]
    simp only [List.filterMap_nil, sextetsToBytes]
    have e1 : a / 4 * 4 + a % 4 * 16 / 16 = a := by omega
    rw [e1]
  | case4 => intro _; simp [b64encode, b64decode, sextetsToBytes]

theorem splitOnDot_ne_nil : ∀ s : Str, splitOnDot s ≠ [] := by
  intro s
  induction s with
  | nil => simp [splitOnDot]
  | cons c rest ih =>
    simp only [splitOnDot]
    split
    · simp
    · split
      · simp
      · simp

theorem splitOnDot_no_dot : ∀ s : Str, '.' ∉ s → splitOnDot s = [s] := by
  intro s
  induction s with
  | nil => intro _; rfl
  | cons c rest ih =>
    intro h
    have hc : c ≠ '.' := fun hc => h (by simp [hc])
    have hrest : '.' ∉ rest := fun hr => h (by simp [hr])
    simp only [splitOnDot, if_neg hc, ih hrest]

theorem splitOnDot_append : ∀ (a rest : Str), '.' ∉ a →
    splitOnDot (a ++ '.' :: rest) = a :: splitOnDot rest := by
  intro a
  induction a with
  | nil => intro rest _; simp [splitOnDot]
  | cons c as ih =>
    intro rest h
    have hc : c ≠ '.' := fun hc => h (by simp [hc])
    have has : '.' ∉ as := fun hr => h (by simp [hr])
    simp only [List.cons_append, splitOnDot, if_neg hc, List.append_eq, ih rest has]

theorem xorStream_xorStream (f : Nat → Nat) :
    ∀ (i : Nat) (l : List Nat), xorStream f i (xorStream f i l) = l := by
  intro i l
  induction l generalizing i with
  | nil => rfl
  | cons b rest ih =>
    simp only [xorStream, Nat.xor_cancel_right, ih]

theorem xorStream_lt (f : Nat → Nat) (hf : ∀ j, f j < 256) :
    ∀ (i : Nat) (l : List Nat), (∀ b ∈ l, b < 256) → ∀ x ∈ xorStream f i l, x < 256 := by
  intro i l
  induction l generalizing i with
  | nil => intro _ x hx; simp [xorStream] at hx
  | cons b rest ih =>
    intro h x hx
    simp only [xorStream, List.mem_cons] at hx
    rcases hx with hx | hx
    · subst hx
      have h1 : b < 2 ^ 8 := h b (by simp)
      have h2 : f i < 2 ^ 8 := hf i
      exact Nat.xor_lt_two_pow h1 h2
    · exact ih (i + 1) (fun y hy => h y (by simp [hy])) x hx

theorem isEmpty_false_of_ne_nil {l : Str} (h : l ≠ []) : l.isEmpty = false := by
  cases l with
  | nil => exact absurd rfl h
  | cons a t => rfl

/-- C2: for every AEAD primitive whose keystream and MAC produce bytes, every
key, every non-empty IV and every non-empty plaintext (the store only ever
encrypts non-empty trimmed passwords), decrypting the envelope produced by
`encryptSecret` under the same key recovers the plaintext exactly.
Plaintext strings are modelled by their UTF-8 byte sequences. -/
theorem C2_decrypt_encrypt_id (p : AeadPrim) (key iv value : List Nat)
    (hivne : iv ≠ []) (hvne : value ≠ [])
    (hiv : ∀ b ∈ iv, b < 256) (hv : ∀ b ∈ value, b < 256)
    (hks : ∀ k v i, p.ks k v i < 256)
    (hmacne : ∀ k v c, p.mac k v c ≠ [])
    (hmac : ∀ k v c, ∀ b ∈ p.mac k v c, b < 256) :
    decryptSecret p key (encryptSecret p key iv value) = .ok value := by
  simp only [encryptSecret, decryptSecret]
  have hsplit :
      splitOnDot (b64encode iv ++ '.' ::
        (b64encode (p.mac key iv (xorStream (p.ks key iv) 0 value)) ++ '.' ::
          b64encode (xorStream (p.ks key iv) 0 value)))
      = [b64encode iv, b64encode (p.mac key iv (xorStream (p.ks key iv) 0 value)),
          b64encode (xorStream (p.ks key iv) 0 value)] := by
    rw [splitOnDot_append _ _ (b64encode_no_dot iv),
      splitOnDot_append _ _ (b64encode_no_dot _),
      splitOnDot_no_dot _ (b64encode_no_dot _)]
  rw [hsplit]
  have hctlt : ∀ x ∈ xorStream (p.ks key iv) 0 value, x < 256 :=
    xorStream_lt (p.ks key iv) (hks key iv) 0 value hv
  have hctne : xorStream (p.ks key iv) 0 value ≠ [] := by
    cases value with
    | nil => exact absurd rfl hvne
    | cons b rest => simp [xorStream]
  simp only [List.getD_cons_zero, List.getD_cons_succ]
  rw [isEmpty_false_of_ne_nil (b64encode_ne_nil hivne),
    isEmpty_false_of_ne_nil (b64encode_ne_nil (hmacne key iv _)),
    isEmpty_false_of_ne_nil (b64encode_ne_nil hctne)]
  simp only [Bool.or_self, Bool.or_false, Bool.false_or, if_neg Bool.false_ne_true,
    Bool.false_eq_true, if_false]
  rw [b64_roundtrip iv hiv, b64_roundtrip _ (hmac key iv _), b64_roundtrip _ hctlt]
  rw [if_pos rfl, xorStream_xorStream]

/-- C2 witness: the round trip evaluated at a concrete primitive, key, IV and
plaintext. -/
theorem C2_witness :
    decryptSecret testPrim [] (encryptSecret testPrim [] [1, 2] [104, 105]) = .ok [104, 105] :=
  C2_decrypt_encrypt_id testPrim [] [1, 2] [104, 105] (by decide) (by decide)
    (by decide) (by decide) (fun _ _ _ => (by decide : (7 : Nat) < 256))
    (fun _ _ _ => (by decide : ([3] : List Nat) ≠ []))
    (fun _ _ _ => (by decide : ∀ b ∈ ([3] : List Nat), b < 256))

/-- C8 counterexample: the payload `"a.b.c.d"` has four `"."`-separated
components, yet `decryptSecret` does not fail with `InvalidPayload`
(JavaScript array destructuring silently drops the fourth component, so the
malformed-envelope check only inspects the first three). -/
theorem C8_counterexample :
    (splitOnDot (str "a.b.c.d")).length = 4 ∧
    decryptSecret testPrim [] (str "a.b.c.d") ≠ .error .invalidPayload := by decide

theorem getD_empty_iff (l : List Str) :
    (l.getD 0 [] = [] ∨ l.getD 1 [] = [] ∨ l.getD 2 [] = []) ↔
      (l.length < 3 ∨ [] ∈ l.take 3) := by
  rcases l with _ | ⟨a, _ | ⟨b, _ | ⟨c, t⟩⟩⟩ <;>
    simp [List.getD, List.take]

/-- C8 amended: `decryptSecret` fails with `InvalidPayload` exactly when the
payload has fewer than three `"."`-separated components or one of the first
three components is empty; extra components beyond the third are ignored, so
a payload with more than three components passes the malformed-envelope
check. -/
theorem C8_invalidPayload_iff (p : AeadPrim) (key : List Nat) (payload : Str) :
    decryptSecret p key payload = .error .invalidPayload ↔
      ((splitOnDot payload).length < 3 ∨ [] ∈ (splitOnDot payload).take 3) := by
  rw [← getD_empty_iff]
  simp only [decryptSecret]
  by_cases h : ((splitOnDot payload).getD 0 []).isEmpty
      || ((splitOnDot payload).getD 1 []).isEmpty
      || ((splitOnDot payload).getD 2 []).isEmpty
  · simp only [h, if_true]
    simp only [Bool.or_eq_true, List.isEmpty_iff] at h
    tauto
  · simp only [h, Bool.false_eq_true, if_false]
    simp only [Bool.or_eq_true, List.isEmpty_iff] at h
    push_neg at h
    constructor
    · intro hcontra
      split at hcontra <;> simp_all
    · intro hcontra
      tauto

/-! ### Lexicographic-order lemmas for the JavaScript string comparison -/

theorem ltStr_trans : ∀ a b c : Str, ltStr a b = true → ltStr b c = true → ltStr a c = true := by
  intro a
  induction a with
  | nil =>
    intro b c hab hbc
    cases b with
    | nil => simp [ltStr] at hab
    | cons y bs =>
      cases c with
      | nil => simp [ltStr] at hbc
      | cons z cs => simp [ltStr]
  | cons x as ih =>
    intro b c hab hbc
    cases b with
    | nil => simp [ltStr] at hab
    | cons y bs =>
      cases c with
      | nil => simp [ltStr] at hbc
      | cons z cs =>
        rcases lt_trichotomy x y with hxy | hxy | hxy
        · rcases lt_trichotomy y z with hyz | hyz | hyz
          · simp [ltStr, lt_trans hxy hyz]
          · subst hyz; simp [ltStr, hxy]
          · simp [ltStr, not_lt_of_gt hyz, hyz] at hbc
        · subst hxy
          rcases lt_trichotomy x z with hxz | hxz | hxz
          · simp [ltStr, hxz]
          · subst hxz
            simp only [ltStr, lt_irrefl, if_false] at hab hbc ⊢
            exact ih bs cs hab hbc
          · simp only [ltStr, not_lt_of_gt hxz, if_neg, if_pos hxz] at hbc
            simp at hbc
        · simp only [ltStr, not_lt_of_gt hxy, if_neg, if_pos hxy] at hab
          simp at hab

theorem ltStr_asymm : ∀ a b : Str, ltStr a b = true → ltStr b a = false := by
  intro a
  induction a with
  | nil =>
    intro b hab
    cases b with
    | nil => simp [ltStr] at hab
    | cons y bs => simp [ltStr]
  | cons x as ih =>
    intro b hab
    cases b with
    | nil => simp [ltStr] at hab
    | cons y bs =>
      rcases lt_trichotomy x y with hxy | hxy | hxy
      · simp [ltStr, not_lt_of_gt hxy, hxy]
      · subst hxy
        simp only [ltStr, lt_irrefl, if_false] at hab ⊢
        exact ih bs hab
      · simp [ltStr, not_lt_of_gt hxy, hxy] at hab

theorem ltStr_connex : ∀ a b : Str, ltStr a b = false → ltStr b a = false → a = b := by
  intro a
  induction a with
  | nil =>
    intro b hab _
    cases b with
    | nil => rfl
    | cons y bs => simp [ltStr] at hab
  | cons x as ih =>
    intro b hab hba
    cases b with
    | nil => simp [ltStr] at hba
    | cons y bs =>
      rcases lt_trichotomy x y with hxy | hxy | hxy
      · simp [ltStr, hxy] at hab
      · subst hxy
        simp only [ltStr, lt_irrefl, if_false] at hab hba
        rw [ih bs hab hba]
      · simp [ltStr, not_lt_of_gt hxy, hxy] at hba

theorem ltStr_not_lt_trans {a b c : Str}
    (hab : ltStr a b = false) (hbc : ltStr b c = false) : ltStr a c = false := by
  cases hac : ltStr a c with
  | false => rfl
  | true =>
    exfalso
    cases hba : ltStr b a with
    | false =>
      have : a = b := ltStr_connex a b hab hba
      subst this
      rw [hac] at hbc
      simp at hbc
    | true =>
      have := ltStr_trans b a c hba hac
      rw [this] at hbc
      simp at hbc

/-! ### Data model of the client stores (`clients.ts`, both variants) -/

/-- Embedding of `PLAN_OPTIONS` from `src/lib/client-options.ts` (its source
is bundled as the final document of `src/app/page.tsx`):
`["Starter", "Growth", "Enterprise", "Custom"]`. -/
def PLAN_OPTIONS : List Str :=
  [str "Starter", str "Growth", str "Enterprise", str "Custom"]

/-- Embedding of `STATUS_OPTIONS` from `src/lib/client-options.ts` (its
source is bundled as the final document of `src/app/page.tsx`):
`["Active", "Pending", "Trial", "Churn Risk", "Offboarded"]`. -/
def STATUS_OPTIONS : List Str :=
  [str "Active", str "Pending", str "Trial", str "Churn Risk", str "Offboarded"]

/-- Embedding of `normalizePlan`: undefined or empty input falls back to
`"Starter"`, otherwise the first option equal to the trimmed input up to
letter case is chosen, falling back to `"Starter"`. -/
def normalizePlan (plan : Option Str) : Str :=
  match plan with
  | none => str "Starter"
  | some s =>
    if s.isEmpty then str "Starter"
    else (PLAN_OPTIONS.find? (fun o => lowerStr o == lowerStr (trimStr s))).getD (str "Starter")

/-- Embedding of `normalizeStatus`, with fallback `"Pending"`. -/
def normalizeStatus (status : Option Str) : Str :=
  match status with
  | none => str "Pending"
  | some s =>
    if s.isEmpty then str "Pending"
    else (STATUS_OPTIONS.find? (fun o => lowerStr o == lowerStr (trimStr s))).getD (str "Pending")

/-- Embedding of the email test `/^[^\s@]+@[^\s@]+\.[^\s@]+$/` used by both
variants: exactly one `@`; a non-empty whitespace-free local part; a
whitespace-free domain containing a `.` that is neither its first nor its
last character (the character classes admit further dots on either side). -/
def emailOk (s : Str) : Bool :=
  (s.count '@' == 1) &&
    (let a := s.takeWhile (fun c => c != '@')
     let d := (s.dropWhile (fun c => c != '@')).drop 1
     !a.isEmpty && a.all (fun c => !c.isWhitespace) && d.all (fun c => !c.isWhitespace) &&
       (d.drop 1).dropLast.contains '.')

/-- One element of the persisted JSON array of the file-backed store, with
every field optional as on disk (JavaScript `undefined` is `none`). -/
structure RawClient where
  id : Option Str
  name : Option Str
  company : Option Str
  email : Option Str
  phone : Option Str
  plan : Option Str
  status : Option Str
  password : Option Str
  notes : Option Str
  createdAt : Option Str
  updatedAt : Option Str
  deriving DecidableEq, Repr

/-- A raw element of the parsed document: either not an object (rejected by
`normalizeClient`) or an object with optional fields. -/
inductive RawItem
  | notObject
  | obj (c : RawClient)
  deriving DecidableEq, Repr

/-- The parsed state of the file-backed store's document: unparseable JSON,
a parseable non-array value, or an array of raw items. -/
inductive FileDoc
  | unparseable
  | nonArray
  | arr (items : List RawItem)
  deriving DecidableEq, Repr

/-- The `ClientRecord` shape returned to callers by both variants (plain
`password`, all optional fields defaulted to the empty string). -/
structure ClientRecord where
  id : Str
  name : Str
  company : Str
  email : Str
  phone : Str
  plan : Str
  status : Str
  password : Str
  notes : Str
  createdAt : Str
  updatedAt : Str
  deriving DecidableEq, Repr

/-- Embedding of `normalizeClient` of the file variant: reject non-objects
and objects missing (or carrying empty) `id`, `name`, `email` or `password`;
default the optional fields; normalize `plan`/`status`; default `createdAt`
to the current time and `updatedAt` to `createdAt` (nullish coalescing, so an
empty-string timestamp is kept as is). -/
def normalizeClient (now : Str) : RawItem → Option ClientRecord
  | .notObject => none
  | .obj c =>
    match c.id, c.name, c.email, c.password with
    | some i, some n, some e, some pw =>
      if i.isEmpty || n.isEmpty || e.isEmpty || pw.isEmpty then none
      else
        let createdAt := c.createdAt.getD now
        let updatedAt := c.updatedAt.getD createdAt
        some { id := i, name := n, company := c.company.getD [], email := e,
               phone := c.phone.getD [], plan := normalizePlan c.plan,
               status := normalizeStatus c.status, password := pw,
               notes := c.notes.getD [], createdAt := createdAt, updatedAt := updatedAt }
    | _, _, _, _ => none

/-- Descending `createdAt` order on returned records: the JavaScript
comparator `(a, b) => (a.createdAt < b.createdAt ? 1 : -1)` places `a` no
later than `b` exactly when `a.createdAt < b.createdAt` is false. -/
def descC (a b : ClientRecord) : Prop := ltStr a.createdAt b.createdAt = false

instance : DecidableRel descC := fun _ _ => Bool.decEq _ _

instance : IsTotal ClientRecord descC where
  total a b := by
    unfold descC
    cases h : ltStr a.createdAt b.createdAt with
    | false => exact Or.inl rfl
    | true => exact Or.inr (ltStr_asymm _ _ h)

instance : IsTrans ClientRecord descC where
  trans _ _ _ hab hbc := ltStr_not_lt_trans hab hbc

/-- Embedding of the file variant's `readClients`: unparseable JSON and
non-array documents read as the empty list; array elements are normalized,
corrupt ones dropped, and the result sorted newest `createdAt` first. -/
def readClientsFile (now : Str) : FileDoc → List ClientRecord
  | .unparseable => []
  | .nonArray => []
  | .arr items => (items.filterMap (normalizeClient now)).insertionSort descC

/-- Serialization of a normalized record back into a raw document element, as
`JSON.stringify` writes it (every field present). -/
def toRaw (c : ClientRecord) : RawItem :=
  .obj { id := some c.id, name := some c.name, company := some c.company,
         email := some c.email, phone := some c.phone, plan := some c.plan,
         status := some c.status, password := some c.password,
         notes := some c.notes, createdAt := some c.createdAt,
         updatedAt := some c.updatedAt }

/-- The error taxonomy of the store layer (the source throws `Error` values
with these distinct messages). -/
inductive StoreErr
  | idRequired
  | nameRequired
  | invalidEmail
  | passwordRequired
  | duplicateEmail
  | notFound
  | emptyPassword
  deriving DecidableEq, Repr

/-- The creation input accepted by `addClient` in both variants. -/
structure ClientInput where
  name : Str
  email : Str
  password : Str
  notes : Option Str
  company : Option Str
  phone : Option Str
  plan : Option Str
  status : Option Str
  deriving DecidableEq, Repr

/-- Embedding of the file variant's `addClient`: validate, read the current
document, reject an exact match of the lower-cased trimmed input email
against a stored email, then persist the new record in front of the
re-serialized normalized records.  Returns the document after the call
together with the result; every error is thrown before the write, so the
document is returned unchanged in that case. -/
def addClientFile (now newId : Str) (input : ClientInput) (doc : FileDoc) :
    FileDoc × Except StoreErr RawClient :=
  let trimmedName := trimStr input.name
  let trimmedEmail := lowerStr (trimStr input.email)
  let password := trimStr input.password
  if trimmedName.isEmpty then (doc, .error .nameRequired)
  else if !emailOk trimmedEmail then (doc, .error .invalidEmail)
  else if password.isEmpty then (doc, .error .passwordRequired)
  else
    let clients := readClientsFile now doc
    if clients.any (fun c => c.email == trimmedEmail) then (doc, .error .duplicateEmail)
    else
      let newClient : RawClient :=
        { id := some newId, name := some trimmedName,
          company := input.company.map trimStr, email := some trimmedEmail,
          phone := input.phone.map trimStr, plan := some (normalizePlan input.plan),
          status := some (normalizeStatus input.status), password := some password,
          notes := input.notes.map trimStr, createdAt := some now, updatedAt := some now }
      (.arr (.obj newClient :: clients.map toRaw), .ok newClient)

/-- Embedding of the file variant's `removeClient`: filter the normalized
records by id; when nothing was removed return without writing, otherwise
persist the filtered list. -/
def removeClientFile (now id : Str) (doc : FileDoc) : FileDoc × Bool :=
  let clients := readClientsFile now doc
  let updated := clients.filter (fun c => c.id != id)
  if updated.length == clients.length then (doc, false)
  else (.arr (updated.map toRaw), true)

/-- One row of the `gitan_clients` table (snake_case columns; nullable
columns are `Option`).  No plain-password column exists: the secret is
persisted only as `password_ciphertext`. -/
structure DbRow where
  id : Str
  name : Str
  company : Option Str
  email : Str
  phone : Option Str
  plan : Str
  status : Str
  password_ciphertext : Str
  notes : Option Str
  created_at : Str
  updated_at : Str
  deriving DecidableEq, Repr

/-- The partial update input accepted by the database variant's
`updateClient`. -/
structure ClientUpdateInput where
  id : Str
  name : Option Str
  email : Option Str
  password : Option Str
  notes : Option Str
  company : Option Str
  phone : Option Str
  plan : Option Str
  status : Option Str
  deriving DecidableEq, Repr

/-- Engine behaviour of the `gitan_clients` unique constraints: the unique
index on `lower(email)` (together with `UNIQUE (email)`, which it subsumes)
rejects a new email whose lower-casing collides with another row's. -/
def emailTaken (t : List DbRow) (excludeId : Option Str) (email : Str) : Bool :=
  t.any (fun r =>
    (match excludeId with
     | none => true
     | some i => r.id != i) && lowerStr r.email == lowerStr email)

/-- Embedding of the database variant's `addClient`: validate name, email and
password exactly as the file variant does, encrypt the trimmed password with
the process cipher (passed in as `encrypt`), and insert a fresh row; a unique
violation (Postgres error 23505) is mapped to the duplicate-email error.
Errors leave the table unchanged because they are thrown before (or instead
of) the INSERT. -/
def addClientDb (encrypt : Str → Str) (now newId : Str) (input : ClientInput)
    (t : List DbRow) : List DbRow × Except StoreErr DbRow :=
  let trimmedName := trimStr input.name
  let trimmedEmail := lowerStr (trimStr input.email)
  let password := trimStr input.password
  if trimmedName.isEmpty then (t, .error .nameRequired)
  else if !emailOk trimmedEmail then (t, .error .invalidEmail)
  else if password.isEmpty then (t, .error .passwordRequired)
  else if emailTaken t none trimmedEmail then (t, .error .duplicateEmail)
  else
    let row : DbRow :=
      { id := newId, name := trimmedName, company := input.company.map trimStr,
        email := trimmedEmail, phone := input.phone.map trimStr,
        plan := normalizePlan input.plan, status := normalizeStatus input.status,
        password_ciphertext := encrypt password, notes := input.notes.map trimStr,
        created_at := now, updated_at := now }
    (t ++ [row], .ok row)

/-- Embedding of the database variant's `removeClient`: `DELETE ... WHERE id`
removes the matching rows and reports whether any row was deleted. -/
def removeClientDb (id : Str) (t : List DbRow) : List DbRow × Bool :=
  (t.filter (fun r => r.id != id), t.any (fun r => r.id == id))

/-- Embedding of the database variant's `updateClient`: resolve each partial
field against the existing row (a supplied string is trimmed, an absent field
keeps the stored value), reject an empty resolved name, an invalid resolved
email and an empty supplied password, re-encrypt only a supplied password,
then run the UPDATE, whose unique index maps collisions with a different row
to the duplicate-email error.  Every error is thrown before the UPDATE, so
the table is returned unchanged in that case. -/
def updateClientDb (encrypt : Str → Str) (now : Str) (input : ClientUpdateInput)
    (t : List DbRow) : List DbRow × Except StoreErr DbRow :=
  let trimmedId := trimStr input.id
  if trimmedId.isEmpty then (t, .error .idRequired)
  else
    match t.find? (fun r => r.id == trimmedId) with
    | none => (t, .error .notFound)
    | some existing =>
      let name := match input.name with | some s => trimStr s | none => existing.name
      if name.isEmpty then (t, .error .nameRequired)
      else
        let email := match input.email with
          | some s => lowerStr (trimStr s)
          | none => existing.email
        if !emailOk email then (t, .error .invalidEmail)
        else
          let plan := normalizePlan (some (input.plan.getD existing.plan))
          let status := normalizeStatus (some (input.status.getD existing.status))
          let company := match input.company with
            | some s => some (trimStr s)
            | none => existing.company
          let phone := match input.phone with
            | some s => some (trimStr s)
            | none => existing.phone
          let notes := match input.notes with
            | some s => some (trimStr s)
            | none => existing.notes
          let proceed : Str → List DbRow × Except StoreErr DbRow := fun ciphertext =>
            let newRow : DbRow :=
              { id := existing.id, name := name, company := company, email := email,
                phone := phone, plan := plan, status := status,
                password_ciphertext := ciphertext, notes := notes,
                created_at := existing.created_at, updated_at := now }
            if emailTaken t (some trimmedId) email then (t, .error .duplicateEmail)
            else (t.map (fun r => if r.id == trimmedId then newRow else r), .ok newRow)
          match input.password with
          | some s =>
            if (trimStr s).isEmpty then (t, .error .emptyPassword)
            else proceed (encrypt (trimStr s))
          | none => proceed existing.password_ciphertext

/-- Embedding of `mapRowToClient`: decrypt the stored ciphertext through the
process cipher (passed in as `decrypt`, standing for `decryptSecret` plus
UTF-8 decoding); a failure is caught, logged and mapped to `none` so the row
is skipped.  Timestamps are stored as ISO strings, on which the
`Date`/`toISOString` round trip is the identity. -/
def mapRowToClient (decrypt : Str → Except CryptoErr Str) (row : DbRow) :
    Option ClientRecord :=
  match decrypt row.password_ciphertext with
  | .error _ => none
  | .ok password =>
    some { id := row.id, name := row.name, company := row.company.getD [],
           email := row.email, phone := row.phone.getD [],
           plan := normalizePlan (some row.plan),
           status := normalizeStatus (some row.status), password := password,
           notes := row.notes.getD [], createdAt := row.created_at,
           updatedAt := row.updated_at }

/-- Descending `created_at` order on table rows (`ORDER BY created_at DESC`;
rows store ISO-8601 UTC strings, whose lexicographic order coincides with
chronological order). -/
def descRow (a b : DbRow) : Prop := ltStr a.created_at b.created_at = false

instance : DecidableRel descRow := fun _ _ => Bool.decEq _ _

instance : IsTotal DbRow descRow where
  total a b := by
    unfold descRow
    cases h : ltStr a.created_at b.created_at with
    | false => exact Or.inl rfl
    | true => exact Or.inr (ltStr_asymm _ _ h)

instance : IsTrans DbRow descRow where
  trans _ _ _ hab hbc := ltStr_not_lt_trans hab hbc

/-- Embedding of the database variant's `readClients`: select all rows newest
`created_at` first, hydrate each through `mapRowToClient` and drop the rows
that fail. -/
def readClientsDb (decrypt : Str → Except CryptoErr Str) (t : List DbRow) :
    List ClientRecord :=
  (t.insertionSort descRow).filterMap (mapRowToClient decrypt)

/-! ### File-system effect traces of the file variant -/

/-- The file-system operations the file variant could perform on its data
directory.  The constructors cover both what the source actually does and
the operations the specification describes (temp-file writes, renames, lock
markers), so that claims about the latter are statable. -/
inductive FsOp
  | readDoc
  | writeDocInPlace (d : FileDoc)
  | writeTempDoc (d : FileDoc)
  | renameTempIntoPlace
  | createLockMarker
  | removeLockMarker
  deriving DecidableEq, Repr

/-- Effect trace of the file variant's `writeClients`: a single in-place
`fs.writeFile` of the full serialized document to the clients path
(`ensureDataFile`'s mkdir/existence probe elided). -/
def writeClientsTrace (clients : List ClientRecord) : List FsOp :=
  [.writeDocInPlace (.arr (clients.map toRaw))]

/-- Effect trace of the file variant's `addClient`: nothing on validation
failure, otherwise a read followed (except on duplicate email) by the
in-place write of the new document. -/
def addClientFileTrace (now newId : Str) (input : ClientInput) (doc : FileDoc) :
    List FsOp :=
  let trimmedName := trimStr input.name
  let trimmedEmail := lowerStr (trimStr input.email)
  let password := trimStr input.password
  if trimmedName.isEmpty then []
  else if !emailOk trimmedEmail then []
  else if password.isEmpty then []
  else
    .readDoc ::
      (if (readClientsFile now doc).any (fun c => c.email == trimmedEmail) then []
       else [.writeDocInPlace (addClientFile now newId input doc).1])

/-- Effect trace of the file variant's `removeClient`: a read, followed by an
in-place write only when a record was actually removed. -/
def removeClientFileTrace (now id : Str) (doc : FileDoc) : List FsOp :=
  .readDoc ::
    (if (removeClientFile now id doc).2 then
      [.writeDocInPlace (removeClientFile now id doc).1]
     else [])

/-! ### Small character-level lemmas and concrete fixtures -/

theorem toNat_ofNat_valid {n : Nat} (h : n.isValidChar) : (Char.ofNat n).toNat = n := by
  rw [Char.ofNat, dif_pos h]
  simp [Char.ofNatAux, Char.toNat, UInt32.toNat, BitVec.toNat_ofNatLt]

theorem toLower_idem (c : Char) : c.toLower.toLower = c.toLower := by
  simp only [Char.toLower]
  split_ifs with h1 h2
  · exfalso
    have hv : (c.toNat + 32).isValidChar := Or.inl (by omega)
    rw [toNat_ofNat_valid hv] at h2
    omega
  · rfl
  · rfl

theorem lowerStr_idem (s : Str) : lowerStr (lowerStr s) = lowerStr s := by
  simp [lowerStr, List.map_map, Function.comp, toLower_idem]

/-- A fixed ISO timestamp used as the current time in concrete runs. -/
def now0 : Str := str "2024-01-01T00:00:00.000Z"

/-- A concrete well-formed creation input. -/
def inp0 : ClientInput :=
  { name := str "Ahmed", email := str "a@x.com", password := str "p1",
    notes := none, company := none, phone := none, plan := none, status := none }

/-- A legacy stored record whose email is not lower-cased (accepted verbatim
by `normalizeClient`, which never lower-cases emails on read). -/
def rawA : RawClient :=
  { id := some (str "1"), name := some (str "Bea"), company := none,
    email := some (str "A@x.com"), phone := none, plan := none, status := none,
    password := some (str "pw"), notes := none, createdAt := some now0,
    updatedAt := some now0 }

/-- A document containing only the legacy record `rawA`. -/
def doc1 : FileDoc := .arr [.obj rawA]

/-- A concrete injective stand-in for `encryptSecret` under the ambient key. -/
def encE : Str → Str := fun s => 'E' :: s

/-- The raw record the file variant persists for `inp0`. -/
def plainRaw0 : RawClient :=
  { id := some (str "2"), name := some (str "Ahmed"), company := none,
    email := some (str "a@x.com"), phone := none, plan := some (str "Starter"),
    status := some (str "Pending"), password := some (str "p1"), notes := none,
    createdAt := some now0, updatedAt := some now0 }

/-- The row the database variant inserts for `inp0` under `encE`. -/
def rowNew0 : DbRow :=
  { id := str "2", name := str "Ahmed", company := none, email := str "a@x.com",
    phone := none, plan := str "Starter", status := str "Pending",
    password_ciphertext := str "Ep1", notes := none, created_at := now0,
    updated_at := now0 }

/-! ### C1 — where the secret lands in the persisted representation -/

/-- C1 counterexample: on an empty store the file variant's `addClient`
persists the document `[plainRaw0]` whose `password` field holds the
plain-text secret `"p1"` verbatim; the file-backed persisted representation
has no `passwordCiphertext` field at all, so the claim that both variants
persist the secret only as ciphertext is false. -/
theorem C1_counterexample :
    addClientFile now0 (str "2") inp0 (.arr []) = (.arr [.obj plainRaw0], .ok plainRaw0) ∧
    plainRaw0.password = some (str "p1") ∧
    plainRaw0.password = some (trimStr inp0.password) := by decide

/-- C1 amended: only the database variant carries the secret exclusively as
`password_ciphertext` produced by the cipher — every row a successful
`addClient` inserts stores `encrypt` of the trimmed input password (and the
`DbRow` shape has no plain-password column); the file variant instead
persists the trimmed plain-text password in the `password` field of the
document. -/
theorem C1_persisted_secret :
    (∀ (encrypt : Str → Str) (now newId : Str) (input : ClientInput)
        (t t' : List DbRow) (row : DbRow),
        addClientDb encrypt now newId input t = (t', .ok row) →
        row.password_ciphertext = encrypt (trimStr input.password) ∧ t' = t ++ [row]) ∧
    (∀ (now newId : Str) (input : ClientInput) (doc doc' : FileDoc) (raw : RawClient),
        addClientFile now newId input doc = (doc', .ok raw) →
        raw.password = some (trimStr input.password)) := by
  constructor
  · intro encrypt now newId input t t' row h
    simp only [addClientDb] at h
    split_ifs at h with h1 h2 h3 h4 <;> simp only [Prod.mk.injEq] at h
    · exact absurd h.2 (by simp)
    · exact absurd h.2 (by simp)
    · exact absurd h.2 (by simp)
    · exact absurd h.2 (by simp)
    · obtain ⟨ht, hr⟩ := h
      cases hr
      exact ⟨rfl, ht.symm⟩
  · intro now newId input doc doc' raw h
    simp only [addClientFile] at h
    split_ifs at h with h1 h2 h3 h4 <;> simp only [Prod.mk.injEq] at h
    · exact absurd h.2 (by simp)
    · exact absurd h.2 (by simp)
    · exact absurd h.2 (by simp)
    · exact absurd h.2 (by simp)
    · obtain ⟨ht, hr⟩ := h
      cases hr
      rfl

/-- C1 witness: the amended statement applied to the concrete insert of
`inp0` (database variant under `encE`, file variant on the empty store). -/
theorem C1_witness :
    rowNew0.password_ciphertext = encE (trimStr inp0.password) ∧
    plainRaw0.password = some (trimStr inp0.password) :=
  ⟨(C1_persisted_secret.1 encE now0 (str "2") inp0 [] [rowNew0] rowNew0 (by decide)).1,
   C1_persisted_secret.2 now0 (str "2") inp0 (.arr []) (.arr [.obj plainRaw0]) plainRaw0
     (by decide)⟩

/-! ### C3 — how the document reaches the disk -/

/-- C3 counterexample: `writeClients` on the empty record list performs a
single in-place write of the serialized document and never issues a rename,
refuting the claim that every write goes through a temporary path followed by
an atomic rename. -/
theorem C3_counterexample :
    writeClientsTrace [] = [.writeDocInPlace (.arr [])] ∧
    FsOp.renameTempIntoPlace ∉ writeClientsTrace [] := by decide

/-- C3 amended: every write of the file-backed store's document is a single
in-place `fs.writeFile` of the full serialized document — no temporary path
and no rename occur, in `writeClients` itself or in any mutation's effect
trace (so a crash mid-write can leave a half-written document). -/
theorem C3_write_in_place :
    (∀ clients : List ClientRecord,
        writeClientsTrace clients = [.writeDocInPlace (.arr (clients.map toRaw))] ∧
        FsOp.renameTempIntoPlace ∉ writeClientsTrace clients ∧
        ∀ d, FsOp.writeTempDoc d ∉ writeClientsTrace clients) ∧
    (∀ (now newId : Str) (input : ClientInput) (doc : FileDoc) (op : FsOp),
        op ∈ addClientFileTrace now newId input doc →
        op = .readDoc ∨ op = .writeDocInPlace (addClientFile now newId input doc).1) ∧
    (∀ (now id : Str) (doc : FileDoc) (op : FsOp),
        op ∈ removeClientFileTrace now id doc →
        op = .readDoc ∨ op = .writeDocInPlace (removeClientFile now id doc).1) := by
  refine ⟨fun clients => ⟨rfl, by simp [writeClientsTrace], by simp [writeClientsTrace]⟩, ?_, ?_⟩
  · intro now newId input doc op hop
    simp only [addClientFileTrace] at hop
    split_ifs at hop with h1 h2 h3 h4 <;> simp at hop <;> tauto
  · intro now id doc op hop
    simp only [removeClientFileTrace] at hop
    split_ifs at hop with h1 <;> simp at hop <;> tauto

/-- C3 witness: the amended statement applied to the read operation of a
concrete successful `addClient` run. -/
theorem C3_witness :
    FsOp.readDoc = FsOp.readDoc ∨
      FsOp.readDoc = .writeDocInPlace (addClientFile now0 (str "2") inp0 (.arr [])).1 :=
  C3_write_in_place.2.1 now0 (str "2") inp0 (.arr []) .readDoc (by decide)

/-! ### C4 — locking before read-modify-write -/

/-- C4 counterexample: a concrete successful `addClient` run of the file
variant performs exactly a read followed by an in-place write, and its trace
contains no lock-marker creation at all, refuting the claim that every
mutation first acquires an exclusive lock marker. -/
theorem C4_counterexample :
    addClientFileTrace now0 (str "2") inp0 (.arr []) =
      [.readDoc, .writeDocInPlace (.arr [.obj plainRaw0])] ∧
    FsOp.createLockMarker ∉ addClientFileTrace now0 (str "2") inp0 (.arr []) := by decide

/-- C4 amended: the file variant's mutations contain no locking protocol at
all — no `add` or `remove` run ever creates or removes a lock marker, so the
read-modify-write sections execute without mutual exclusion (and no
staleness/backoff/StorageUnavailable logic exists). -/
theorem C4_no_locking :
    (∀ (now newId : Str) (input : ClientInput) (doc : FileDoc),
        FsOp.createLockMarker ∉ addClientFileTrace now newId input doc ∧
        FsOp.removeLockMarker ∉ addClientFileTrace now newId input doc) ∧
    (∀ (now id : Str) (doc : FileDoc),
        FsOp.createLockMarker ∉ removeClientFileTrace now id doc ∧
        FsOp.removeLockMarker ∉ removeClientFileTrace now id doc) := by
  constructor
  · intro now newId input doc
    simp only [addClientFileTrace]
    split_ifs with h1 h2 h3 h4 <;> simp
  · intro now id doc
    simp only [removeClientFileTrace]
    split_ifs with h1 <;> simp

/-! ### C10 — whole-document corruption reads as an empty store -/

/-- C10: in the file variant, an unparseable document and a parseable
non-array document both read as the empty record list; `readClients` is total
and surfaces no error, so whole-document corruption is indistinguishable from
an empty store at the public interface. -/
theorem C10_corrupt_doc_reads_empty (now : Str) :
    readClientsFile now .unparseable = [] ∧ readClientsFile now .nonArray = [] :=
  ⟨rfl, rfl⟩

/-! ### C6 — duplicate-email rejection -/

/-- C6 counterexample: the store `doc1` holds a record whose stored email
`"A@x.com"` equals the normalized input email `"a@x.com"` up to letter case,
yet the file variant's `addClient` succeeds and changes the document: its
duplicate check compares the lower-cased input against the stored email by
exact equality, so a legacy record with an upper-case email is not matched. -/
theorem C6_counterexample :
    lowerStr (trimStr inp0.email) = lowerStr (str "A@x.com") ∧
    rawA.email = some (str "A@x.com") ∧
    (addClientFile now0 (str "2") inp0 doc1).2 ≠ .error .duplicateEmail ∧
    (addClientFile now0 (str "2") inp0 doc1).1 ≠ doc1 := by decide

/-- C6 amended: the database variant rejects, with the duplicate-email error
and an unchanged table, every valid add whose normalized email matches an
existing row's email up to letter case; the file variant does so only when
the lower-cased trimmed input email is exactly equal to a stored record's
email (stored emails that are not lower-case escape the check), and the
document is unchanged whenever the error is raised. -/
theorem C6_duplicate_email :
    (∀ (encrypt : Str → Str) (now newId : Str) (input : ClientInput) (t : List DbRow),
        (trimStr input.name).isEmpty = false →
        emailOk (lowerStr (trimStr input.email)) = true →
        (trimStr input.password).isEmpty = false →
        (∃ r ∈ t, lowerStr r.email = lowerStr (trimStr input.email)) →
        addClientDb encrypt now newId input t = (t, .error .duplicateEmail)) ∧
    (∀ (now newId : Str) (input : ClientInput) (doc : FileDoc),
        (trimStr input.name).isEmpty = false →
        emailOk (lowerStr (trimStr input.email)) = true →
        (trimStr input.password).isEmpty = false →
        (∃ c ∈ readClientsFile now doc, c.email = lowerStr (trimStr input.email)) →
        addClientFile now newId input doc = (doc, .error .duplicateEmail)) := by
  constructor
  · intro encrypt now newId input t hname hemail hpw hdup
    have htaken : emailTaken t none (lowerStr (trimStr input.email)) = true := by
      obtain ⟨r, hr, he⟩ := hdup
      simp only [emailTaken, List.any_eq_true]
      refine ⟨r, hr, ?_⟩
      simp [he, lowerStr_idem]
    simp [addClientDb, hname, hemail, hpw, htaken]
  · intro now newId input doc hname hemail hpw hdup
    have hany : (readClientsFile now doc).any
        (fun c => c.email == lowerStr (trimStr input.email)) = true := by
      obtain ⟨c, hc, he⟩ := hdup
      simp only [List.any_eq_true]
      exact ⟨c, hc, by simp [he]⟩
    simp [addClientFile, hname, hemail, hpw, hany]

/-- C6 witness: the amended statement applied to a duplicate insert in both
variants (database table holding `rowNew0`, file document holding
`plainRaw0`, both with email `"a@x.com"`). -/
theorem C6_witness :
    addClientDb encE now0 (str "3") inp0 [rowNew0] = ([rowNew0], .error .duplicateEmail) ∧
    addClientFile now0 (str "3") inp0 (.arr [.obj plainRaw0]) =
      (.arr [.obj plainRaw0], .error .duplicateEmail) :=
  ⟨C6_duplicate_email.1 encE now0 (str "3") inp0 [rowNew0] (by decide) (by decide)
      (by decide) ⟨rowNew0, by decide, by decide⟩,
   C6_duplicate_email.2 now0 (str "3") inp0 (.arr [.obj plainRaw0]) (by decide) (by decide)
      (by decide)
      ⟨⟨str "2", str "Ahmed", [], str "a@x.com", [], str "Starter", str "Pending",
          str "p1", [], now0, now0⟩, by decide, by decide⟩⟩

/-! ### C5 — update with omitted versus empty password -/

/-- A concrete partial update that omits the password and changes the plan. -/
def updInp0 : ClientUpdateInput :=
  { id := str "2", name := none, email := none, password := none, notes := none,
    company := none, phone := none, plan := some (str "Growth"), status := none }

/-- A concrete partial update that supplies an all-whitespace password. -/
def updInpBlank : ClientUpdateInput :=
  { id := str "2", name := none, email := none, password := some (str " "),
    notes := none, company := none, phone := none, plan := none, status := none }

/-- The row produced by applying `updInp0` to `rowNew0`. -/
def rowUpd0 : DbRow :=
  { id := str "2", name := str "Ahmed", company := none, email := str "a@x.com",
    phone := none, plan := str "Growth", status := str "Pending",
    password_ciphertext := str "Ep1", notes := none, created_at := now0,
    updated_at := now0 }

/-- C5: in the database variant's `updateClient`, an omitted password field
leaves the stored ciphertext of the record byte-for-byte unchanged on every
successful update (hence the decrypted password is preserved exactly), while
a supplied password that trims to the empty string makes the call fail with
the empty-password error before the UPDATE statement runs, leaving the table
— and so the prior ciphertext — unchanged. -/
theorem C5_update_password :
    (∀ (encrypt : Str → Str) (now : Str) (input : ClientUpdateInput)
        (t t' : List DbRow) (ex row : DbRow),
        input.password = none →
        t.find? (fun r => r.id == trimStr input.id) = some ex →
        updateClientDb encrypt now input t = (t', .ok row) →
        row.password_ciphertext = ex.password_ciphertext) ∧
    (∀ (encrypt : Str → Str) (now : Str) (input : ClientUpdateInput)
        (t : List DbRow) (ex : DbRow) (s : Str),
        (trimStr input.id).isEmpty = false →
        t.find? (fun r => r.id == trimStr input.id) = some ex →
        (match input.name with
          | some n => trimStr n
          | none => ex.name).isEmpty = false →
        emailOk (match input.email with
          | some e => lowerStr (trimStr e)
          | none => ex.email) = true →
        input.password = some s →
        (trimStr s).isEmpty = true →
        updateClientDb encrypt now input t = (t, .error .emptyPassword)) := by
  constructor
  · intro encrypt now input t t' ex row hpw hfind hup
    cases hid : (trimStr input.id).isEmpty with
    | true => simp [updateClientDb, hid] at hup
    | false =>
      simp only [updateClientDb, hid, Bool.false_eq_true, if_false, hfind, hpw] at hup
      split_ifs at hup with h1 h2 h3 <;> simp only [Prod.mk.injEq] at hup
      · exact absurd hup.2 (by simp)
      · exact absurd hup.2 (by simp)
      · exact absurd hup.2 (by simp)
      · obtain ⟨ht, hr⟩ := hup
        cases hr
        rfl
  · intro encrypt now input t ex s hid hfind hname hemail hpw hs
    simp [updateClientDb, hid, hfind, hname, hemail, hpw, hs]

/-- C5 witness: the theorem applied to a concrete update of the table
`[rowNew0]`: omitting the password preserves the ciphertext `"Ep1"`, and a
blank password fails with the empty-password error leaving the table as it
was. -/
theorem C5_witness :
    rowUpd0.password_ciphertext = rowNew0.password_ciphertext ∧
    updateClientDb encE now0 updInpBlank [rowNew0] = ([rowNew0], .error .emptyPassword) :=
  ⟨C5_update_password.1 encE now0 updInp0 [rowNew0] [rowUpd0] rowNew0 rowUpd0 rfl
      (by decide) (by decide),
   C5_update_password.2 encE now0 updInpBlank [rowNew0] rowNew0 (str " ") (by decide)
      (by decide) (by decide) (by decide) rfl (by decide)⟩

/-! ### C9 — removal semantics -/

theorem length_filterMap_of_isSome {α β : Type _} (f : α → Option β) :
    ∀ l : List α, (∀ x ∈ l, (f x).isSome) → (l.filterMap f).length = l.length := by
  intro l h
  induction l with
  | nil => rfl
  | cons a t ih =>
    obtain ⟨b, hb⟩ := Option.isSome_iff_exists.mp (h a (by simp))
    simp only [List.filterMap_cons, hb, List.length_cons]
    rw [ih (fun x hx => h x (by simp [hx]))]

theorem length_filter_bne_of_mem_nodup {α : Type _} (key : α → Str) (v : Str) :
    ∀ l : List α, (∃ x ∈ l, key x = v) → (l.map key).Nodup →
      (l.filter (fun x => key x != v)).length + 1 = l.length := by
  intro l
  induction l with
  | nil =>
    rintro ⟨x, hx, _⟩ _
    simp at hx
  | cons a t ih =>
    rintro ⟨x, hx, hkey⟩ hnd
    simp only [List.map_cons, List.nodup_cons] at hnd
    obtain ⟨hna, hndt⟩ := hnd
    rcases List.mem_cons.mp hx with rfl | hxt
    · have htail : ∀ y ∈ t, key y ≠ v := by
        intro y hy hc
        exact hna (hkey ▸ hc ▸ List.mem_map_of_mem key hy)
      rw [List.filter_cons, if_neg (by simp [hkey])]
      rw [List.filter_eq_self.mpr (fun y hy => by simp [htail y hy])]
      simp
    · have hka : key a ≠ v := by
        intro hc
        exact hna (hc ▸ hkey ▸ List.mem_map_of_mem key hxt)
      rw [List.filter_cons, if_pos (by simp [hka])]
      have := ih ⟨x, hxt, hkey⟩ hndt
      simp only [List.length_cons]
      omega

theorem mem_readClientsFile {now : Str} {doc : FileDoc} {c : ClientRecord}
    (h : c ∈ readClientsFile now doc) : ∃ item, normalizeClient now item = some c := by
  cases doc with
  | unparseable => simp [readClientsFile] at h
  | nonArray => simp [readClientsFile] at h
  | arr items =>
    simp only [readClientsFile] at h
    rw [List.mem_insertionSort] at h
    obtain ⟨item, _, hnorm⟩ := List.mem_filterMap.mp h
    exact ⟨item, hnorm⟩

theorem normalize_again {now now' : Str} {item : RawItem} {c : ClientRecord}
    (h : normalizeClient now item = some c) :
    (normalizeClient now' (toRaw c)).isSome := by
  cases item with
  | notObject => simp [normalizeClient] at h
  | obj r =>
    cases hid : r.id with
    | none => simp [normalizeClient, hid] at h
    | some i =>
    cases hname : r.name with
    | none => simp [normalizeClient, hid, hname] at h
    | some n =>
    cases hemail : r.email with
    | none => simp [normalizeClient, hid, hname, hemail] at h
    | some e =>
    cases hpw : r.password with
    | none => simp [normalizeClient, hid, hname, hemail, hpw] at h
    | some pw =>
    simp only [normalizeClient, hid, hname, hemail, hpw] at h
    cases hcond : (i.isEmpty || n.isEmpty || e.isEmpty || pw.isEmpty) with
    | true => simp [hcond] at h
    | false =>
      simp only [hcond, Bool.false_eq_true, if_false, Option.some.injEq] at h
      subst h
      simp [normalizeClient, toRaw, hcond]

theorem length_readClientsFile_reserialized {now now' : Str} {doc : FileDoc}
    (cs : List ClientRecord) (hsub : ∀ c ∈ cs, c ∈ readClientsFile now doc) :
    (readClientsFile now' (.arr (cs.map toRaw))).length = cs.length := by
  simp only [readClientsFile, List.length_insertionSort, List.filterMap_map]
  apply length_filterMap_of_isSome
  intro c hc
  obtain ⟨item, hnorm⟩ := mem_readClientsFile (hsub c hc)
  exact normalize_again hnorm

/-- C9: removing an absent id leaves the store untouched and reports
`removed = false`; removing a present id (under the store invariant that ids
are unique) reports `removed = true` and shrinks the record count by exactly
one — in the file variant the count is the number of records a subsequent
read returns, in the database variant the number of table rows. -/
theorem C9_remove_semantics :
    (∀ (now id : Str) (doc : FileDoc),
        (∀ c ∈ readClientsFile now doc, c.id ≠ id) →
        removeClientFile now id doc = (doc, false)) ∧
    (∀ (now id : Str) (doc : FileDoc),
        (∃ c ∈ readClientsFile now doc, c.id = id) →
        ((readClientsFile now doc).map (fun c => c.id)).Nodup →
        (removeClientFile now id doc).2 = true ∧
        (readClientsFile now (removeClientFile now id doc).1).length + 1 =
          (readClientsFile now doc).length) ∧
    (∀ (id : Str) (t : List DbRow),
        (∀ r ∈ t, r.id ≠ id) → removeClientDb id t = (t, false)) ∧
    (∀ (id : Str) (t : List DbRow),
        (∃ r ∈ t, r.id = id) → (t.map (fun r => r.id)).Nodup →
        (removeClientDb id t).2 = true ∧
        (removeClientDb id t).1.length + 1 = t.length) := by
  refine ⟨?_, ?_, ?_, ?_⟩
  · intro now id doc h
    have hfil : (readClientsFile now doc).filter (fun c => c.id != id) =
        readClientsFile now doc :=
      List.filter_eq_self.mpr (fun c hc => by simp [h c hc])
    simp [removeClientFile, hfil]
  · intro now id doc hex hnd
    have hlen : ((readClientsFile now doc).filter (fun c => c.id != id)).length + 1 =
        (readClientsFile now doc).length :=
      length_filter_bne_of_mem_nodup (fun c => c.id) id _ hex hnd
    have hne : (((readClientsFile now doc).filter (fun c => c.id != id)).length ==
        (readClientsFile now doc).length) = false := by
      rw [beq_eq_false_iff_ne]
      omega
    constructor
    · simp [removeClientFile, hne]
    · simp only [removeClientFile, hne, Bool.false_eq_true, if_false]
      rw [length_readClientsFile_reserialized
        ((readClientsFile now doc).filter (fun c => c.id != id))
        (fun c hc => List.mem_of_mem_filter hc)]
      exact hlen
  · intro id t h
    have hfil : t.filter (fun r => r.id != id) = t :=
      List.filter_eq_self.mpr (fun r hr => by simp [h r hr])
    have hany : t.any (fun r => r.id == id) = false := by
      rw [List.any_eq_false]
      intro r hr
      simp [h r hr]
    simp [removeClientDb, hfil, hany]
  · intro id t hex hnd
    obtain ⟨r, hr, hkey⟩ := hex
    constructor
    · simp only [removeClientDb, List.any_eq_true]
      exact ⟨r, hr, by simp [hkey]⟩
    · exact length_filter_bne_of_mem_nodup (fun r => r.id) id t ⟨r, hr, hkey⟩ hnd

/-- C9 witness: the four cases applied to the concrete stores `doc1` (file)
and `[rowNew0]` (database), removing an absent id `"9"` and the present ids
`"1"` and `"2"`. -/
theorem C9_witness :
    removeClientFile now0 (str "9") doc1 = (doc1, false) ∧
    (removeClientFile now0 (str "1") doc1).2 = true ∧
    (readClientsFile now0 (removeClientFile now0 (str "1") doc1).1).length + 1 =
      (readClientsFile now0 doc1).length ∧
    removeClientDb (str "9") [rowNew0] = ([rowNew0], false) ∧
    (removeClientDb (str "2") [rowNew0]).2 = true ∧
    (removeClientDb (str "2") [rowNew0]).1.length + 1 = ([rowNew0] : List DbRow).length := by
  refine ⟨C9_remove_semantics.1 now0 (str "9") doc1 (by decide), ?_, ?_, ?_, ?_, ?_⟩
  · exact (C9_remove_semantics.2.1 now0 (str "1") doc1
      ⟨⟨str "1", str "Bea", [], str "A@x.com", [], str "Starter", str "Pending",
          str "pw", [], now0, now0⟩, by decide, rfl⟩ (by decide)).1
  · exact (C9_remove_semantics.2.1 now0 (str "1") doc1
      ⟨⟨str "1", str "Bea", [], str "A@x.com", [], str "Starter", str "Pending",
          str "pw", [], now0, now0⟩, by decide, rfl⟩ (by decide)).2
  · exact C9_remove_semantics.2.2.1 (str "9") [rowNew0] (by decide)
  · exact (C9_remove_semantics.2.2.2 (str "2") [rowNew0] ⟨rowNew0, by decide, rfl⟩
      (by decide)).1
  · exact (C9_remove_semantics.2.2.2 (str "2") [rowNew0] ⟨rowNew0, by decide, rfl⟩
      (by decide)).2

/-! ### C7 — readAll ordering and per-record failure containment -/

theorem mapRowToClient_createdAt {decrypt : Str → Except CryptoErr Str}
    {row : DbRow} {c : ClientRecord}
    (h : mapRowToClient decrypt row = some c) : c.createdAt = row.created_at := by
  simp only [mapRowToClient] at h
  cases hd : decrypt row.password_ciphertext with
  | error e => rw [hd] at h; simp at h
  | ok pw =>
    rw [hd] at h
    simp only [Option.some.injEq] at h
    subst h
    rfl

/-- C7: both read paths are total (no record can make the whole call raise),
return exactly the records that survive per-record hydration — in the file
variant the elements `normalizeClient` accepts, in the database variant the
rows whose ciphertext decrypts — and order the result so that no record is
followed by one with a strictly newer `createdAt` (newest first). -/
theorem C7_readAll :
    (∀ (now : Str) (items : List RawItem),
        (readClientsFile now (.arr items)).Pairwise descC ∧
        (readClientsFile now (.arr items)).Perm (items.filterMap (normalizeClient now))) ∧
    (∀ (decrypt : Str → Except CryptoErr Str) (t : List DbRow),
        (readClientsDb decrypt t).Pairwise descC ∧
        (readClientsDb decrypt t).Perm (t.filterMap (mapRowToClient decrypt))) := by
  constructor
  · intro now items
    exact ⟨List.sorted_insertionSort descC (items.filterMap (normalizeClient now)),
      List.perm_insertionSort descC (items.filterMap (normalizeClient now))⟩
  · intro decrypt t
    constructor
    · refine List.Pairwise.filterMap (mapRowToClient decrypt) ?_
        (List.sorted_insertionSort descRow t)
      intro a a' hr b hb b' hb'
      have hb1 : mapRowToClient decrypt a = some b := Option.mem_def.mp hb
      have hb2 : mapRowToClient decrypt a' = some b' := Option.mem_def.mp hb'
      have e1 := mapRowToClient_createdAt hb1
      have e2 := mapRowToClient_createdAt hb2
      unfold descC
      rw [e1, e2]
      exact hr
    · exact List.Perm.filterMap (mapRowToClient decrypt) (List.perm_insertionSort descRow t)
